import Mathlib

/-!
Verification of the substitution-and-combination engine of the
recipes_generator repository.

Text is modelled as `List Char` (the repository manipulates Python `str`
values; `List Char` keeps every character-level operation explicit and
decidable).  Python's `str.replace` (literal, non-regex, non-overlapping,
left-to-right replace-all, with Python's special behaviour for an empty
needle) is modelled by `pyReplace`.  Recursions that Python expresses as
loops over shrinking strings are given a fuel argument equal to the string
length, so that every definition evaluates by kernel reduction.
-/

/-- Strings of the modelled program. -/
abbrev Str := List Char

/-- `leadsWith p s` is true when `p` is a prefix of `s` (Python `s.startswith(p)`). -/
def leadsWith : Str → Str → Bool
  | [], _ => true
  | _ :: _, [] => false
  | a :: as, b :: bs => a == b && leadsWith as bs

/-- `occursB pat s` is true when `pat` occurs as a contiguous substring of `s`
(Python `pat in s`). -/
def occursB : Str → Str → Bool
  | pat, [] => leadsWith pat []
  | pat, s@(_ :: rest) => leadsWith pat s || occursB pat rest

/-- Worker for `pyReplace` with a non-empty needle `o :: os`: scans left to
right, replaces each non-overlapping occurrence and continues after the
replacement, exactly like Python `str.replace`.  `fuel` bounds the recursion;
`fuel = s.length` always suffices because each step consumes at least one
character of `s`. -/
def rAllF (o : Char) (os new : Str) : Nat → Str → Str
  | 0, s => s
  | _ + 1, [] => []
  | fuel + 1, c :: rest =>
      if leadsWith (o :: os) (c :: rest) then new ++ rAllF o os new fuel (rest.drop os.length)
      else c :: rAllF o os new fuel rest

/-- Python `s.replace(old, new)` (replace all, literal).  For `old = ""`
Python inserts `new` before every character and at the end. -/
def pyReplace (s old new : Str) : Str :=
  match old with
  | [] => new ++ s.flatMap (fun c => c :: new)
  | o :: os => rAllF o os new s.length s

/-- Splits a string at its first `':'`, if any: models the test
`":" in value` together with `value.split(":", 1)`. -/
def splitFirstColon : Str → Option (Str × Str)
  | [] => none
  | c :: rest =>
      if c = ':' then some ([], rest)
      else (splitFirstColon rest).map (fun p => (c :: p.1, p.2))

/-- Namespace resolution, from `ReplacementEngine._resolve`
(src/src/core/engine.py) and `NamespaceResolver.resolve` (src/src/engine.py):
returns `(name, full_namespace, safe_namespace)`. -/
def resolve (value defaultNs : Str) : Str × Str × Str :=
  match splitFirstColon value with
  | some p => (p.2, p.1 ++ [':'], p.1 ++ ['_'])
  | none =>
      (value, defaultNs,
        if defaultNs = "minecraft:".data then [] else pyReplace defaultNs [':'] ['_'])

/-- The placeholder token `"{" ++ w ++ "}"` (Python `f"{{{r_type}}}"`). -/
def tok (w : Str) : Str := '\x7b' :: w ++ ['\x7d']

/-- A replacement rule, from the `ReplacementRule` dataclass
(src/src/model/config.py).  `extra` maps a matcher key to an ordered map of
literal substring replacements; both maps keep dict insertion order. -/
structure Rule where
  type : Str
  values : List Str
  extra : List (Str × List (Str × Str))
  enabled : Bool
deriving DecidableEq

/-- First-match association-list lookup (Python dict lookup; dict keys are
unique, so first match equals the dict entry). -/
def lookupAssoc {α : Type} : List (Str × α) → Str → Option α
  | [], _ => none
  | p :: rest, k => if p.1 = k then some p.2 else lookupAssoc rest k

/-- One step of building the Python dict `{r.type: r for r in rules}`:
assigning to an existing key keeps its position and updates the value,
a new key is appended. -/
def upsertRule (acc : List Rule) (r : Rule) : List Rule :=
  if acc.any (fun x => x.type == r.type) then
    acc.map (fun x => if x.type == r.type then r else x)
  else acc ++ [r]

/-- The rule index `self.rules = {r.type: r for r in rules}` of
`ReplacementEngine.__init__` (src/src/core/engine.py), as the list of the
dict's values in key order.  Note: no filtering on `enabled` happens here. -/
def indexRules (rules : List Rule) : List Rule := rules.foldl upsertRule []

/-- One override tier of `ReplacementEngine._apply_extra`: applies each
`(old, new)` pair of the tier's mapping in order; the source guards the
replacement with `if old in result`. -/
def tierApply (pairs : List (Str × Str)) (res : Str) : Str :=
  pairs.foldl (fun acc pr => if occursB pr.1 acc then pyReplace acc pr.1 pr.2 else acc) res

/-- The body of `ReplacementEngine._apply_extra` for one rule: skipped when the
rule's type is not a key of the combination; otherwise the wildcard tier, the
bare-name tier and the full-value tier run in that order over the same buffer.
`info` mirrors `combo` (it is built by `_parse_combo`), so its lookup succeeds
whenever `combo`'s does; the `none` fallback is unreachable then. -/
def applyExtraRule (combo : List (Str × Str)) (info : List (Str × (Str × Str × Str)))
    (r : Rule) (res : Str) : Str :=
  match lookupAssoc combo r.type with
  | none => res
  | some _ =>
    match lookupAssoc info r.type with
    | none => res
    | some nf =>
      let name := nf.1
      let full := nf.2.1 ++ name
      let r1 := match lookupAssoc r.extra ("*".data) with
        | none => res
        | some prs => tierApply prs res
      let r2 := match lookupAssoc r.extra name with
        | none => r1
        | some prs => tierApply prs r1
      match lookupAssoc r.extra full with
      | none => r2
      | some prs => tierApply prs r2

/-- `ReplacementEngine._apply_basic` (src/src/core/engine.py): the system
placeholders `{modid}` and `{modid_safe}` (taken from the first type of the
combination, or the default namespace for an empty combination), then one
literal replace of `{type}` by the resolved bare name per entry of `info`,
in insertion order. -/
def applyBasic (defaultNs : Str) (info : List (Str × (Str × Str × Str))) (content : Str) : Str :=
  let modid := match info with
    | [] => defaultNs
    | p :: _ => p.2.2.1
  let r1 := pyReplace content (tok ("modid".data)) modid
  let r2 := pyReplace r1 (tok ("modid_safe".data))
    (if modid = "minecraft:".data then [] else pyReplace modid [':'] ['_'])
  info.foldl (fun acc p => pyReplace acc (tok p.1) p.2.1) r2

/-- `ReplacementEngine.apply` (src/src/core/engine.py): namespace resolution,
basic pass, then the override pass over the rule index in key order. -/
def engineApply (defaultNs : Str) (rules : List Rule) (content : Str)
    (combo : List (Str × Str)) : Str :=
  let info := combo.map (fun p => (p.1, resolve p.2 defaultNs))
  let r1 := applyBasic defaultNs info content
  (indexRules rules).foldl (fun res r => applyExtraRule combo info r res) r1

/-- Cartesian product of a list of value lists in `itertools.product` order:
the first list varies slowest, the last varies fastest. -/
def productLists : List (List Str) → List (List Str)
  | [] => [[]]
  | l :: ls => l.flatMap (fun v => (productLists ls).map (fun c => v :: c))

/-- A rule as consumed by `CombinationGenerator.generate` (src/src/engine.py),
which reads only `r["type"]` and `r["values"]`. -/
structure SRule where
  rtype : Str
  values : List Str
deriving DecidableEq

/-- The filtered rule list of `CombinationGenerator.generate`:
`[r for r in rules if r["type"] in needed_types]`. -/
def cgActive (rules : List SRule) (needed : List Str) : List SRule :=
  rules.filter (fun r => needed.any (fun t => t == r.rtype))

/-- `CombinationGenerator.generate` (src/src/engine.py): empty result when no
rule matches, otherwise `itertools.product` over the value lists of the
matching rules in rule-list order. -/
def cgGenerate (rules : List SRule) (needed : List Str) : List (List Str) :=
  let active := cgActive rules needed
  if active.isEmpty then [] else productLists (active.map SRule.values)

/-- The tuple at flat index `i` of the cartesian product of `L` when the first
list varies slowest: the head index is `i` divided by the size of the product
of the remaining lists, and the remainder indexes the rest. -/
def cartAt : List (List Str) → Nat → List Str
  | [], _ => []
  | l :: ls, i =>
      let p := (ls.map List.length).prod
      l.getD (i / p) [] :: cartAt ls (i % p)

/-- `ReplacementEngine.generate_combinations` (src/src/core/engine.py):
`needed = set(template.placeholders)` (modelled as first-occurrence
deduplication; Python set iteration order is unspecified, which no theorem
below relies on beyond the single-placeholder case), filtered through the rule
index, then the cartesian product zipped with the type names into ordered
key-value pairs (the Python dicts `dict(zip(type_names, combo))`). -/
def coreGenerateCombinations (rules : List Rule) (placeholders : List Str) :
    List (List (Str × Str)) :=
  let idx := indexRules rules
  let needed := placeholders.dedup
  let active := needed.filterMap (fun t => idx.find? (fun r => r.type == t))
  if active.isEmpty then []
  else (productLists (active.map Rule.values)).map
    (fun combo => (active.map Rule.type).zip combo)

/-- Python `id.split(":")[-1]` (the trailing component after the last `':'`,
or the whole string when it has none), from `BatchItem.get_key_prefix`
(src/src/model/batch_item.py).  `fuel = s.length` suffices because each step
drops at least the leading colon segment. -/
def lastColonComponentF : Nat → Str → Str
  | 0, s => s
  | fuel + 1, s =>
      match splitFirstColon s with
      | none => s
      | some p => lastColonComponentF fuel p.2

/-- The trailing `':'`-separated component of a string. -/
def lastColonComponent (s : Str) : Str := lastColonComponentF s.length s

/-- A localization batch item, from the `BatchItem` dataclass
(src/src/model/batch_item.py).  `nspace` models the `namespace` field (a Lean
keyword).  `replacements` keeps dict insertion order. -/
structure BatchItem where
  id : Str
  zh_cn : Str
  nspace : Str
  category : Str
  skip_patterns : List Str
  replacements : List (Str × Str)
deriving DecidableEq

/-- `BatchItem.get_modid_safe`: `""` for the `minecraft:` namespace, otherwise
the namespace with `':'` replaced by `'_'`. -/
def get_modid_safe (item : BatchItem) : Str :=
  if item.nspace = "minecraft:".data then [] else pyReplace item.nspace [':'] ['_']

/-- `BatchItem.should_skip_template`: substring match of any skip pattern
against the key template (an empty pattern list never skips). -/
def should_skip_template (item : BatchItem) (templateKey : Str) : Bool :=
  item.skip_patterns.any (fun p => occursB p templateKey)

/-- Whether a replacement key is metadata (Python `old.startswith("_")`). -/
def startsU : Str → Bool
  | '_' :: _ => true
  | _ => false

/-- The characters Python `str.split()` splits on: CPython's whitespace set,
i.e. the Unicode White_Space characters (U+0009..U+000D, U+0020, U+0085,
U+00A0, U+1680, U+2000..U+200A, U+2028, U+2029, U+202F, U+205F, U+3000)
together with the separator controls U+001C..U+001F that CPython also treats
as whitespace. -/
def isWS (c : Char) : Bool :=
  (0x09 ≤ c.toNat && c.toNat ≤ 0x0d) || c.toNat == 0x20 ||
  (0x1c ≤ c.toNat && c.toNat ≤ 0x1f) || c.toNat == 0x85 || c.toNat == 0xa0 ||
  c.toNat == 0x1680 || (0x2000 ≤ c.toNat && c.toNat ≤ 0x200a) ||
  c.toNat == 0x2028 || c.toNat == 0x2029 || c.toNat == 0x202f ||
  c.toNat == 0x205f || c.toNat == 0x3000

/-- Python `s.split()`: maximal runs of non-whitespace characters, leading and
trailing whitespace dropped.  `fuel = s.length` suffices. -/
def pySplitWSF : Nat → Str → List Str
  | 0, _ => []
  | fuel + 1, s =>
      match s with
      | [] => []
      | c :: rest =>
          if isWS c then pySplitWSF fuel rest
          else (c :: rest.takeWhile (fun x => !isWS x)) ::
            pySplitWSF fuel (rest.dropWhile (fun x => !isWS x))

/-- `BatchItem.apply_replacements` (src/src/model/batch_item.py): each
`(old, new)` pair is applied as a literal replace-all unless its key starts
with `'_'`; then `''.join(result.split())` removes all whitespace. -/
def apply_replacements (item : BatchItem) (text : Str) : Str :=
  let r := item.replacements.foldl
    (fun acc pr => if startsU pr.1 then acc else pyReplace acc pr.1 pr.2) text
  (pySplitWSF r.length r).flatten

/-- The loop `while "__" in real_key: real_key = real_key.replace("__", "_")`
of `LocalizationEngine._build_real_key`.  Each iteration shortens the string,
so `fuel = s.length` iterations always reach the fixed point. -/
def collapseLoopF : Nat → Str → Str
  | 0, s => s
  | fuel + 1, s =>
      if occursB ['_', '_'] s then collapseLoopF fuel (pyReplace s ['_', '_'] ['_'])
      else s

/-- The underscore-collapsing loop of `_build_real_key`, run to its fixed point. -/
def collapseLoop (s : Str) : Str := collapseLoopF s.length s

/-- Python `s.strip('_')`: leading and trailing underscores removed. -/
def stripU (s : Str) : Str :=
  ((s.dropWhile (fun c => c == '_')).reverse.dropWhile (fun c => c == '_')).reverse

/-- `LocalizationEngine._build_real_key` (src/src/core/localization_engine.py):
placeholder substitution, the hard-coded crimson/warped log-to-stem special
case, the underscore-collapsing loop, then strip. -/
def build_real_key (kt : Str) (item : BatchItem) : Str :=
  let k1 := pyReplace kt (tok ("material_id".data)) (lastColonComponent item.id)
  let k2 := pyReplace k1 (tok ("modid_safe".data)) (get_modid_safe item)
  let k3 := pyReplace k2 (tok ("category".data)) item.category
  let k4 :=
    if item.id = "minecraft:crimson".data ∨ item.id = "minecraft:warped".data then
      pyReplace (pyReplace k3 ("_log_".data) ("_stem_".data)) ("table_log".data)
        ("table_stem".data)
    else k3
  stripU (collapseLoop k4)

/-- `LocalizationEngine._build_combo`: the substitution parameters passed to
`apply` for one item, in source order. -/
def build_combo (item : BatchItem) : List (Str × Str) :=
  [(("material_id".data), lastColonComponent item.id),
   (("material_zh_cn".data), item.zh_cn),
   (("modid_safe".data), get_modid_safe item),
   (("category".data), item.category)]

/-- A loaded localization template, from `LocalizationEngine.load_templates`:
`.json` files are parsed into a key/value dict (`some`), other files keep
their string content (`none`), on which `generate_for_item`'s
`template.content.items()` raises `AttributeError`. -/
structure LocTemplate where
  content : Option (List (Str × Str))
deriving DecidableEq

/-- The exceptions `generate_for_item` can raise: `KeyError` for a missing
item, `ValueError` for an unloaded template, `AttributeError` when the stored
template content is a plain string rather than a dict. -/
inductive GenErr where
  | keyError : Str → GenErr
  | valueError : Str → GenErr
  | attrError : GenErr
deriving DecidableEq

/-- Python dict assignment `d[k] = v`: updates an existing key in place,
appends a new key. -/
def dictInsert {α : Type} (l : List (Str × α)) (k : Str) (v : α) : List (Str × α) :=
  if l.any (fun p => p.1 == k) then l.map (fun p => if p.1 == k then (k, v) else p)
  else l ++ [(k, v)]

/-- `LocalizationEngine.generate_for_item` (src/src/core/localization_engine.py):
validates the item and template lookups, then builds the entry dict by
skip-filtering, key construction, engine application and post-processing. -/
def generate_for_item (defaultNs : Str) (rules : List Rule)
    (items : List (Str × BatchItem)) (templates : List (Str × LocTemplate))
    (item_id tname : Str) : Except GenErr (Str × List (Str × Str)) :=
  match lookupAssoc items item_id with
  | none => .error (.keyError item_id)
  | some item =>
    match lookupAssoc templates tname with
    | none => .error (.valueError tname)
    | some tmpl =>
      match tmpl.content with
      | none => .error .attrError
      | some kvs =>
        .ok (item_id, kvs.foldl
          (fun entries kv =>
            if should_skip_template item kv.1 then entries
            else dictInsert entries (build_real_key kv.1 item)
              (apply_replacements item (engineApply defaultNs rules kv.2 (build_combo item))))
          [])

/-- `LocalizationEngine.generate_batch`: iterates the item ids, collects each
successful `generate_for_item` result into the result dict and skips any item
whose generation raised. -/
def generate_batch (defaultNs : Str) (rules : List Rule)
    (items : List (Str × BatchItem)) (templates : List (Str × LocTemplate))
    (tname : Str) : List (Str × List (Str × Str)) :=
  items.foldl
    (fun results p =>
      match generate_for_item defaultNs rules items templates p.1 tname with
      | .ok r => dictInsert results r.1 r.2
      | .error _ => results)
    []

/-- Whether an `Except` carries a success. -/
def isOkB {ε α : Type} : Except ε α → Bool
  | .ok _ => true
  | .error _ => false

/-- The generated filename of the non-localization path, from
`RecipeService._process_template` (src/src/service/recipe_service.py): the
engine applied to the template file name, then `':'`, `'/'` and `'\'`
sanitized to `'_'`. -/
def processFilename (defaultNs : Str) (rules : List Rule) (templateName : Str)
    (combo : List (Str × Str)) : Str :=
  let f := engineApply defaultNs rules templateName combo
  pyReplace (pyReplace (pyReplace f [':'] ['_']) ['/'] ['_']) ['\x5c'] ['_']

/-- Modelled from the spec: the filename convention the spec asserts for the
non-localization path,
`"_".join(f"{type}_{value.replace(':','_')}" for type,value in combination.items()) + ".json"`.
No function in the source computes this; it is stated only to be compared
with `processFilename`. -/
def claimedFilename (combo : List (Str × Str)) : Str :=
  List.intercalate ['_'] (combo.map (fun p => p.1 ++ '_' :: pyReplace p.2 [':'] ['_'])) ++
    ".json".data

/-- Modelled from the spec: one-pass collapse of every run of consecutive
underscores to a single underscore — the declarative reading of the spec's
"collapse any run of consecutive underscores to one", to be compared with the
source's `while`-loop `collapseLoop`. -/
def collapseU : Str → Str
  | [] => []
  | [c] => [c]
  | a :: b :: rest =>
      if a = '_' ∧ b = '_' then collapseU (b :: rest) else a :: collapseU (b :: rest)

/-- Modelled from the spec: `_build_real_key` as §4.5 step 2 describes it —
the same substitutions and special case, with the underscore cleanup stated
declaratively (`collapseU`) instead of the source's fixed-point loop. -/
def build_real_key_spec (kt : Str) (item : BatchItem) : Str :=
  let k1 := pyReplace kt (tok ("material_id".data)) (lastColonComponent item.id)
  let k2 := pyReplace k1 (tok ("modid_safe".data)) (get_modid_safe item)
  let k3 := pyReplace k2 (tok ("category".data)) item.category
  let k4 :=
    if item.id = "minecraft:crimson".data ∨ item.id = "minecraft:warped".data then
      pyReplace (pyReplace k3 ("_log_".data) ("_stem_".data)) ("table_log".data)
        ("table_stem".data)
    else k3
  stripU (collapseU k4)

/-- A placeholder-identifier character: letter, digit or underscore
(the scanner pattern `[a-zA-Z0-9_]`). -/
def isWordChar (c : Char) : Bool := c.isAlphanum || c == '_'

/-! ## Helper lemmas -/

theorem rAllF_not_mem_self (a b : Char) (h : a ≠ b) :
    ∀ fuel (s : Str), s.length ≤ fuel → a ∉ rAllF a [] [b] fuel s := by
  intro fuel
  induction fuel with
  | zero =>
      intro s hs
      have : s = [] := List.length_eq_zero.mp (Nat.le_zero.mp hs)
      subst this
      simp [rAllF]
  | succ fuel ih =>
      intro s hs
      match s with
      | [] => simp [rAllF]
      | c :: rest =>
          by_cases hc : a = c
          · subst hc
            have hlw : leadsWith [a] (a :: rest) = true := by simp [leadsWith]
            have hlen : rest.length ≤ fuel := by
              simp at hs; omega
            simp only [rAllF, hlw, if_pos rfl, List.drop_zero]
            intro hmem
            rcases List.mem_append.mp hmem with h1 | h1
            · rcases List.mem_singleton.mp h1 with h2
              exact h h2
            · exact ih rest hlen h1
          · have hlw : leadsWith [a] (c :: rest) = false := by
              simp [leadsWith]
              exact fun h2 => (hc h2).elim
            have hlen : rest.length ≤ fuel := by
              simp at hs; omega
            simp only [rAllF, hlw, Bool.false_eq_true, if_false]
            intro hmem
            rcases List.mem_cons.mp hmem with h1 | h1
            · exact hc h1
            · exact ih rest hlen h1

theorem rAllF_not_mem_keep (a : Char) (o : Char) (os new : Str)
    (hnew : a ∉ new) :
    ∀ fuel (s : Str), a ∉ s → a ∉ rAllF o os new fuel s := by
  intro fuel
  induction fuel with
  | zero => intro s hs; simpa [rAllF] using hs
  | succ fuel ih =>
      intro s hs
      match s with
      | [] => simp [rAllF]
      | c :: rest =>
          have hrest : a ∉ rest := fun h => hs (List.mem_cons_of_mem _ h)
          have hdrop : a ∉ rest.drop os.length := fun h => hrest (List.mem_of_mem_drop h)
          by_cases hlw : leadsWith (o :: os) (c :: rest) = true
          · simp only [rAllF, hlw, if_true]
            intro hmem
            rcases List.mem_append.mp hmem with h1 | h1
            · exact hnew h1
            · exact ih _ hdrop h1
          · simp only [rAllF, hlw, if_false]
            intro hmem
            rcases List.mem_cons.mp hmem with h1 | h1
            · exact hs (h1 ▸ List.mem_cons_self _ _)
            · exact ih _ hrest h1

theorem pyReplace_single_not_mem (s : Str) (a b : Char) (h : a ≠ b) :
    a ∉ pyReplace s [a] [b] :=
  rAllF_not_mem_self a b h s.length s (Nat.le_refl _)

theorem pyReplace_not_mem (s old new : Str) (a : Char) (hs : a ∉ s) (hnew : a ∉ new) :
    a ∉ pyReplace s old new := by
  match old with
  | [] =>
      simp only [pyReplace]
      intro hmem
      rcases List.mem_append.mp hmem with h1 | h1
      · exact hnew h1
      · rcases List.mem_flatMap.mp h1 with ⟨c, hc, hmem2⟩
        rcases List.mem_cons.mp hmem2 with h2 | h2
        · exact hs (h2 ▸ hc)
        · exact hnew h2
  | o :: os => exact rAllF_not_mem_keep a o os new hnew s.length s hs

/-! ## Claim theorems -/

/-- C1 counterexample: with rule `type="tree"`,
`extra={"*": {"X":"W"}, "oak": {"X":"O"}, "minecraft:oak": {"X":"F"}}`,
applying the engine to the text `"X"` under the combination
`{"tree": "minecraft:oak"}` does not yield `"F"`: the wildcard tier runs
first over the same buffer and consumes the only occurrence of `"X"`. -/
theorem c1_tier_order_counterexample :
    ¬ (engineApply ("minecraft:".data)
        [⟨"tree".data, ["minecraft:oak".data],
          [(("*".data), [(("X".data), ("W".data))]),
           (("oak".data), [(("X".data), ("O".data))]),
           (("minecraft:oak".data), [(("X".data), ("F".data))])], true⟩]
        ("X".data) [(("tree".data), ("minecraft:oak".data))] = "F".data) := by
  decide

/-- C1 amended: on the spec's input the engine yields `"W"`: the three tiers
run in the fixed order wildcard, bare-name, full-value over the same text
buffer, so when several tiers target the same old substring the wildcard tier
consumes it first and the later tiers find nothing to replace.  A full-value
override wins only when its old string is still (or newly) present, e.g. when
it targets the output of the wildcard tier, as the second conjunct shows. -/
theorem c1_tier_order_amended :
    (engineApply ("minecraft:".data)
      [⟨"tree".data, ["minecraft:oak".data],
        [(("*".data), [(("X".data), ("W".data))]),
         (("oak".data), [(("X".data), ("O".data))]),
         (("minecraft:oak".data), [(("X".data), ("F".data))])], true⟩]
      ("X".data) [(("tree".data), ("minecraft:oak".data))] = "W".data) ∧
    (engineApply ("minecraft:".data)
      [⟨"tree".data, ["minecraft:oak".data],
        [(("*".data), [(("X".data), ("W".data))]),
         (("minecraft:oak".data), [(("W".data), ("F".data))])], true⟩]
      ("X".data) [(("tree".data), ("minecraft:oak".data))] = "F".data) := by
  constructor
  · decide
  · decide

/-- C3: evaluation of the consolidated generation path at the failing input.
`RecipeService._initialize_components` passes `config.rules` unfiltered and
`ReplacementEngine.__init__` indexes every rule, so a rule with
`enabled=false` still contributes its values to the cartesian product: the
disabled rule `{type:"tree", values:["oak"]}` produces the combination
`{"tree": "oak"}` for a template with placeholder `tree`. -/
theorem c3_disabled_rule_bug :
    coreGenerateCombinations [⟨"tree".data, ["oak".data], [], false⟩] [("tree".data)] =
      [[(("tree".data), ("oak".data))]] ∧
    (⟨"tree".data, ["oak".data], [], false⟩ : Rule).enabled = false := by
  constructor
  · decide
  · rfl

/-- C9 counterexample: for the template file `"{tree}_table.json"` and the
combination `{"tree": "oak"}`, the code generates the filename
`"oak_table.json"` (the engine applied to the template's file name, then
sanitized), while the claimed join convention would give `"tree_oak.json"`;
the two differ. -/
theorem c9_filename_counterexample :
    processFilename ("minecraft:".data) [⟨"tree".data, ["oak".data], [], true⟩]
        ("\x7btree\x7d_table.json".data) [(("tree".data), ("oak".data))] =
      "oak_table.json".data ∧
    claimedFilename [(("tree".data), ("oak".data))] = "tree_oak.json".data ∧
    ¬ (processFilename ("minecraft:".data) [⟨"tree".data, ["oak".data], [], true⟩]
        ("\x7btree\x7d_table.json".data) [(("tree".data), ("oak".data))] =
      claimedFilename [(("tree".data), ("oak".data))]) := by
  refine ⟨by decide, by decide, by decide⟩

/-- C9 amended: the generated filename of the non-localization path is the
replacement engine applied to the template's file name with `':'`, `'/'` and
`'\'` each replaced by `'_'`; consequently it never contains any of those
three characters, and on the example template `"{tree}_table.json"` with
combination `{"tree": "oak"}` it is `"oak_table.json"`. -/
theorem c9_filename_amended :
    (∀ (defaultNs : Str) (rules : List Rule) (nm : Str) (combo : List (Str × Str)),
      ':' ∉ processFilename defaultNs rules nm combo ∧
      '/' ∉ processFilename defaultNs rules nm combo ∧
      '\x5c' ∉ processFilename defaultNs rules nm combo) ∧
    processFilename ("minecraft:".data) [⟨"tree".data, ["oak".data], [], true⟩]
        ("\x7btree\x7d_table.json".data) [(("tree".data), ("oak".data))] =
      "oak_table.json".data := by
  constructor
  · intro defaultNs rules nm combo
    show ':' ∉ pyReplace (pyReplace (pyReplace _ [':'] ['_']) ['/'] ['_']) ['\x5c'] ['_'] ∧
      '/' ∉ pyReplace (pyReplace (pyReplace _ [':'] ['_']) ['/'] ['_']) ['\x5c'] ['_'] ∧
      '\x5c' ∉ pyReplace (pyReplace (pyReplace _ [':'] ['_']) ['/'] ['_']) ['\x5c'] ['_']
    refine ⟨?_, ?_, ?_⟩
    · exact pyReplace_not_mem _ _ _ _
        (pyReplace_not_mem _ _ _ _
          (pyReplace_single_not_mem _ _ _ (by decide)) (by decide)) (by decide)
    · exact pyReplace_not_mem _ _ _ _
        (pyReplace_single_not_mem _ _ _ (by decide)) (by decide)
    · exact pyReplace_single_not_mem _ _ _ (by decide)
  · decide

/-- C10: `generate_for_item` validates its lookups before generating anything:
a missing item id raises `KeyError`, and (the item being present) an unloaded
template name raises `ValueError`; in both cases the result is the error
alone, so no entries are produced (the engine's mappings are inputs of the
pure model and are untouched). -/
theorem c10_lookup_validation :
    (∀ (defaultNs : Str) (rules : List Rule) (items : List (Str × BatchItem))
        (templates : List (Str × LocTemplate)) (item_id tname : Str),
      lookupAssoc items item_id = none →
      generate_for_item defaultNs rules items templates item_id tname =
        .error (.keyError item_id)) ∧
    (∀ (defaultNs : Str) (rules : List Rule) (items : List (Str × BatchItem))
        (templates : List (Str × LocTemplate)) (item_id tname : Str)
        (item : BatchItem),
      lookupAssoc items item_id = some item →
      lookupAssoc templates tname = none →
      generate_for_item defaultNs rules items templates item_id tname =
        .error (.valueError tname)) := by
  constructor
  · intro defaultNs rules items templates item_id tname h
    simp [generate_for_item, h]
  · intro defaultNs rules items templates item_id tname item h1 h2
    simp [generate_for_item, h1, h2]

/-- C10 witness: concrete instances of both validation failures. -/
theorem c10_lookup_validation_witness :
    (lookupAssoc ([] : List (Str × BatchItem)) ("minecraft:oak".data) = none ∧
      generate_for_item ("minecraft:".data) [] [] [] ("minecraft:oak".data)
        ("material.json".data) = .error (.keyError ("minecraft:oak".data))) ∧
    (lookupAssoc [(("minecraft:oak".data),
        (⟨"minecraft:oak".data, "橡木".data, "minecraft:".data, "material".data, [], []⟩ :
          BatchItem))] ("minecraft:oak".data) =
      some (⟨"minecraft:oak".data, "橡木".data, "minecraft:".data, "material".data, [], []⟩ :
        BatchItem) ∧
      generate_for_item ("minecraft:".data) []
        [(("minecraft:oak".data),
          ⟨"minecraft:oak".data, "橡木".data, "minecraft:".data, "material".data, [], []⟩)]
        [] ("minecraft:oak".data) ("material.json".data) =
        .error (.valueError ("material.json".data))) := by
  constructor
  · exact ⟨by decide, c10_lookup_validation.1 _ _ _ _ _ _ (by decide)⟩
  · exact ⟨by decide,
      c10_lookup_validation.2 ("minecraft:".data) []
        [(("minecraft:oak".data),
          ⟨"minecraft:oak".data, "橡木".data, "minecraft:".data, "material".data, [], []⟩)]
        [] ("minecraft:oak".data) ("material.json".data)
        ⟨"minecraft:oak".data, "橡木".data, "minecraft:".data, "material".data, [], []⟩
        (by decide) (by decide)⟩

theorem splitFirstColon_none (v : Str) (h : ':' ∉ v) : splitFirstColon v = none := by
  induction v with
  | nil => rfl
  | cons c rest ih =>
      have hc : ¬ c = ':' := fun hc => h (hc ▸ List.mem_cons_self _ _)
      have hrest : ':' ∉ rest := fun hm => h (List.mem_cons_of_mem _ hm)
      simp [splitFirstColon, hc, ih hrest]

theorem splitFirstColon_split (a b : Str) (h : ':' ∉ a) :
    splitFirstColon (a ++ ':' :: b) = some (a, b) := by
  induction a with
  | nil => simp [splitFirstColon]
  | cons c rest ih =>
      have hc : ¬ c = ':' := fun hc => h (hc ▸ List.mem_cons_self _ _)
      have hrest : ':' ∉ rest := fun hm => h (List.mem_cons_of_mem _ hm)
      simp [splitFirstColon, hc, ih hrest]

/-- C4: namespace resolution splits a value on its first `':'` into namespace
and name (`full = ns ++ ":"`, `safe = ns ++ "_"`); a value without `':'` keeps
the default namespace, whose safe form is `""` exactly for `"minecraft:"` and
otherwise the default with `':'` turned into `'_'`.  `resolve` is a total
function (no input string is an error), and the spec's two examples hold. -/
theorem c4_resolve_spec :
    (∀ (a b d : Str), ':' ∉ a →
      resolve (a ++ ':' :: b) d = (b, a ++ [':'], a ++ ['_'])) ∧
    (∀ (v d : Str), ':' ∉ v →
      resolve v d =
        (v, d, if d = "minecraft:".data then [] else pyReplace d [':'] ['_'])) ∧
    resolve ("pfm:oak".data) ("minecraft:".data) =
      ("oak".data, "pfm:".data, "pfm_".data) ∧
    resolve ("oak".data) ("minecraft:".data) = ("oak".data, "minecraft:".data, []) := by
  refine ⟨?_, ?_, by decide, by decide⟩
  · intro a b d h
    simp [resolve, splitFirstColon_split a b h]
  · intro v d h
    simp [resolve, splitFirstColon_none v h]

/-- C4 witness: the first-colon split applied at `"pfm" ++ ":" ++ "oak"` with a
non-minecraft default namespace, and the no-colon branch at `"oak"`. -/
theorem c4_resolve_witness :
    ((':' ∉ ("pfm".data)) ∧
      resolve (("pfm".data) ++ ':' :: ("oak".data)) ("pfm:".data) =
        ("oak".data, "pfm".data ++ [':'], "pfm".data ++ ['_'])) ∧
    ((':' ∉ ("oak".data)) ∧
      resolve ("oak".data) ("minecraft:".data) =
        ("oak".data, "minecraft:".data,
          if ("minecraft:".data : Str) = "minecraft:".data then []
          else pyReplace ("minecraft:".data) [':'] ['_'])) := by
  constructor
  · exact ⟨by decide, c4_resolve_spec.1 ("pfm".data) ("oak".data) ("pfm:".data) (by decide)⟩
  · exact ⟨by decide, c4_resolve_spec.2.1 ("oak".data) ("minecraft:".data) (by decide)⟩

theorem flatMap_len {α β : Type} (f : α → List β) (p : Nat) :
    ∀ (l : List α), (∀ a ∈ l, (f a).length = p) → (l.flatMap f).length = l.length * p := by
  intro l
  induction l with
  | nil => intro _; simp
  | cons a t ih =>
      intro h
      have ha : (f a).length = p := h a (List.mem_cons_self _ _)
      have ht := ih (fun x hx => h x (List.mem_cons_of_mem _ hx))
      simp only [List.flatMap_cons, List.length_append, List.length_cons, ha, ht,
        Nat.succ_mul]
      omega

theorem productLists_length : ∀ (L : List (List Str)),
    (productLists L).length = (L.map List.length).prod := by
  intro L
  induction L with
  | nil => simp [productLists]
  | cons l ls ih =>
      simp only [productLists, List.map_cons, List.prod_cons]
      exact flatMap_len _ _ l (fun a _ => by simp [ih])

theorem getD_map_lt {α β : Type} (f : α → β) (d : β) (d' : α) :
    ∀ (l : List α) (i : Nat), i < l.length → (l.map f).getD i d = f (l.getD i d') := by
  intro l
  induction l with
  | nil => intro i hi; simp at hi
  | cons a t ih =>
      intro i hi
      match i with
      | 0 => simp
      | j + 1 =>
          simp only [List.map_cons, List.getD_cons_succ]
          exact ih j (by simp at hi; omega)

theorem productLists_getD : ∀ (L : List (List Str)) (i : Nat),
    i < (L.map List.length).prod → (productLists L).getD i [] = cartAt L i := by
  intro L
  induction L with
  | nil =>
      intro i hi
      have : i = 0 := Nat.lt_one_iff.mp (by simpa using hi)
      subst this
      simp [productLists, cartAt]
  | cons l ls ih =>
      have inner : ∀ (l' : List Str) (i : Nat),
          i < l'.length * (ls.map List.length).prod →
          (l'.flatMap (fun v => (productLists ls).map (fun c => v :: c))).getD i [] =
            l'.getD (i / (ls.map List.length).prod) [] ::
              cartAt ls (i % (ls.map List.length).prod) := by
        intro l'
        induction l' with
        | nil => intro i hi; simp at hi
        | cons v t iht =>
            intro i hi
            set p := (ls.map List.length).prod with hp
            have hp0 : 0 < p := by
              rcases Nat.eq_zero_or_pos p with h0 | h0
              · rw [h0, Nat.mul_zero] at hi; omega
              · exact h0
            have hchunklen : ((productLists ls).map (fun c => v :: c)).length = p := by
              simp [productLists_length]
            have hflat :
                ((v :: t).flatMap (fun v => (productLists ls).map (fun c => v :: c))) =
                ((productLists ls).map (fun c => v :: c)) ++
                  (t.flatMap (fun v => (productLists ls).map (fun c => v :: c))) := by
              simp [List.flatMap_cons]
            by_cases hip : i < p
            · have hdiv : i / p = 0 := Nat.div_eq_of_lt hip
              have hmod : i % p = i := Nat.mod_eq_of_lt hip
              rw [hflat, List.getD_append _ _ _ _ (by rw [hchunklen]; exact hip)]
              rw [getD_map_lt _ _ []
                _ i (by rw [productLists_length]; exact hip)]
              rw [hdiv, hmod, List.getD_cons_zero]
              congr 1
              exact ih i hip
            · have hpi : p ≤ i := Nat.le_of_not_lt hip
              have hrec : i - p < t.length * p := by
                have hexp : (v :: t).length * p = t.length * p + p := by
                  rw [List.length_cons, Nat.succ_mul]
                rw [hexp] at hi
                omega
              rw [hflat, List.getD_append_right _ _ _ _ (by rw [hchunklen]; exact hpi)]
              rw [hchunklen]
              rw [iht (i - p) hrec]
              have hdiv : i / p = (i - p) / p + 1 := Nat.div_eq_sub_div hp0 hpi
              have hmod : i % p = (i - p) % p := Nat.mod_eq_sub_mod hpi
              rw [hdiv, hmod, List.getD_cons_succ]
      intro i hi
      simp only [List.map_cons, List.prod_cons] at hi
      simp only [productLists]
      rw [inner l i hi]
      rfl

theorem productLists_nodup : ∀ (L : List (List Str)),
    (∀ l ∈ L, l.Nodup) → (productLists L).Nodup := by
  intro L
  induction L with
  | nil => intro _; simp [productLists]
  | cons l ls ih =>
      intro h
      have hl : l.Nodup := h l (List.mem_cons_self _ _)
      have hP : (productLists ls).Nodup := ih (fun x hx => h x (List.mem_cons_of_mem _ hx))
      simp only [productLists]
      clear h ih
      induction l with
      | nil => simp
      | cons v t iht =>
          have hv : v ∉ t := (List.nodup_cons.mp hl).1
          have ht : t.Nodup := (List.nodup_cons.mp hl).2
          simp only [List.flatMap_cons]
          rw [List.nodup_append]
          refine ⟨hP.map (fun a b hab => by simpa using hab), iht ht, ?_⟩
          intro x hx1 hx2
          rcases List.mem_map.mp hx1 with ⟨c, _, hc2⟩
          rcases List.mem_flatMap.mp hx2 with ⟨w, hw1, hw2⟩
          rcases List.mem_map.mp hw2 with ⟨c', _, hc2'⟩
          have h3 : v :: c = w :: c' := hc2.trans hc2'.symm
          have hvw : v = w := by injection h3
          exact hv (hvw ▸ hw1)

/-- C2 counterexample: a matching rule whose values list repeats `"oak"` makes
`CombinationGenerator.generate` emit the same tuple twice, so the generated
combinations are not unique tuples as the claim states. -/
theorem c2_cartesian_counterexample :
    cgGenerate [⟨"tree".data, ["oak".data, "oak".data]⟩] [("tree".data)] =
      [["oak".data], ["oak".data]] ∧
    ¬ (cgGenerate [⟨"tree".data, ["oak".data, "oak".data]⟩] [("tree".data)]).Nodup := by
  exact ⟨by decide, by decide⟩

/-- C2 amended: provided each matching rule's values list has no duplicates,
`CombinationGenerator.generate` returns exactly `n1 * ... * nk` combinations,
pairwise distinct, in cartesian order with the first filtered rule varying
slowest and the last varying fastest (the combination at flat index `i` is
`cartAt` of the filtered value lists at `i`); rule order is the order of the
filtered rule list and value order the order within each rule's values, and
the result is empty when no rule matches a needed type. -/
theorem c2_cartesian_amended (rules : List SRule) (needed : List Str)
    (h : ∀ r ∈ cgActive rules needed, r.values.Nodup) :
    (cgActive rules needed = [] → cgGenerate rules needed = []) ∧
    (cgActive rules needed ≠ [] →
      (cgGenerate rules needed).length =
        ((cgActive rules needed).map (fun r => r.values.length)).prod) ∧
    (cgGenerate rules needed).Nodup ∧
    (∀ i, i < (cgGenerate rules needed).length →
      (cgGenerate rules needed).getD i [] =
        cartAt ((cgActive rules needed).map SRule.values) i) := by
  by_cases hA : cgActive rules needed = []
  · have hres : cgGenerate rules needed = [] := by
      simp [cgGenerate, hA]
    refine ⟨fun _ => hres, fun hne => absurd hA hne, by simp [hres], ?_⟩
    intro i hi
    rw [hres] at hi
    simp at hi
  · have hres : cgGenerate rules needed =
        productLists ((cgActive rules needed).map SRule.values) := by
      simp only [cgGenerate]
      rw [if_neg (by simpa [List.isEmpty_iff] using hA)]
    have hlenmap : ((cgActive rules needed).map SRule.values).map List.length =
        (cgActive rules needed).map (fun r => r.values.length) := by
      simp [List.map_map]
    refine ⟨fun h' => absurd h' hA, fun _ => ?_, ?_, ?_⟩
    · rw [hres, productLists_length, hlenmap]
    · rw [hres]
      exact productLists_nodup _ (fun l hl => by
        rcases List.mem_map.mp hl with ⟨r, hr, hrl⟩
        exact hrl ▸ h r hr)
    · intro i hi
      rw [hres] at hi ⊢
      rw [productLists_length] at hi
      exact productLists_getD _ i hi

/-- C2 witness: two matching rules with duplicate-free value lists
`["oak","birch"]` and `["axe"]`. -/
theorem c2_cartesian_witness :
    (∀ r ∈ cgActive [⟨"tree".data, ["oak".data, "birch".data]⟩, ⟨"tool".data, ["axe".data]⟩]
        ["tree".data, "tool".data], r.values.Nodup) ∧
    ((cgActive [⟨"tree".data, ["oak".data, "birch".data]⟩, ⟨"tool".data, ["axe".data]⟩]
        ["tree".data, "tool".data] = [] →
      cgGenerate [⟨"tree".data, ["oak".data, "birch".data]⟩, ⟨"tool".data, ["axe".data]⟩]
        ["tree".data, "tool".data] = []) ∧
    (cgActive [⟨"tree".data, ["oak".data, "birch".data]⟩, ⟨"tool".data, ["axe".data]⟩]
        ["tree".data, "tool".data] ≠ [] →
      (cgGenerate [⟨"tree".data, ["oak".data, "birch".data]⟩, ⟨"tool".data, ["axe".data]⟩]
        ["tree".data, "tool".data]).length =
        ((cgActive [⟨"tree".data, ["oak".data, "birch".data]⟩, ⟨"tool".data, ["axe".data]⟩]
          ["tree".data, "tool".data]).map (fun r => r.values.length)).prod) ∧
    (cgGenerate [⟨"tree".data, ["oak".data, "birch".data]⟩, ⟨"tool".data, ["axe".data]⟩]
        ["tree".data, "tool".data]).Nodup ∧
    (∀ i, i < (cgGenerate [⟨"tree".data, ["oak".data, "birch".data]⟩,
        ⟨"tool".data, ["axe".data]⟩] ["tree".data, "tool".data]).length →
      (cgGenerate [⟨"tree".data, ["oak".data, "birch".data]⟩, ⟨"tool".data, ["axe".data]⟩]
          ["tree".data, "tool".data]).getD i [] =
        cartAt ((cgActive [⟨"tree".data, ["oak".data, "birch".data]⟩,
          ⟨"tool".data, ["axe".data]⟩] ["tree".data, "tool".data]).map SRule.values) i)) :=
  ⟨by decide,
    c2_cartesian_amended [⟨"tree".data, ["oak".data, "birch".data]⟩, ⟨"tool".data, ["axe".data]⟩]
      ["tree".data, "tool".data] (by decide)⟩

theorem leadsWith_drop : ∀ (q s : Str), leadsWith q s = true → s = q ++ s.drop q.length := by
  intro q
  induction q with
  | nil => intro s _; simp
  | cons a as ih =>
      intro s h
      match s with
      | [] => simp [leadsWith] at h
      | c :: rest =>
          simp only [leadsWith, Bool.and_eq_true, beq_iff_eq] at h
          have := ih rest h.2
          simp only [List.length_cons, List.drop_succ_cons, List.cons_append]
          rw [h.1, ← this]

theorem leadsWith_occurs (pat s : Str) (h : leadsWith pat s = true) : occursB pat s = true := by
  match s with
  | [] => simpa [occursB] using h
  | c :: rest => simp [occursB, h]

theorem occurs_append_left (pat t : Str) :
    ∀ (w : Str), occursB pat t = true → occursB pat (w ++ t) = true := by
  intro w
  induction w with
  | nil => intro h; simpa using h
  | cons a w' ih => intro h; simp [occursB, ih h]

theorem occurs_skip (p' : Str) :
    ∀ (os t : Str), (∀ c ∈ os, ('\x7b' : Char) ≠ c) →
      occursB ('\x7b' :: p') (os ++ t) = true → occursB ('\x7b' :: p') t = true := by
  intro os
  induction os with
  | nil => intro t _ h; simpa using h
  | cons a os' ih =>
      intro t hos h
      simp only [List.cons_append, occursB, Bool.or_eq_true] at h
      rcases h with h | h
      · simp only [leadsWith, Bool.and_eq_true, beq_iff_eq] at h
        exact absurd h.1 (hos a (List.mem_cons_self _ _))
      · exact ih t (fun c hc => hos c (List.mem_cons_of_mem _ hc)) h

theorem leadsWith_total : ∀ (s a b : Str), leadsWith a s = true → leadsWith b s = true →
    leadsWith a b = true ∨ leadsWith b a = true := by
  intro s
  induction s with
  | nil =>
      intro a b ha hb
      match a with
      | [] => exact Or.inl rfl
      | x :: as => simp [leadsWith] at ha
  | cons c s' ih =>
      intro a b ha hb
      match a with
      | [] => exact Or.inl rfl
      | x :: as =>
          match b with
          | [] => exact Or.inr rfl
          | y :: bs =>
              simp only [leadsWith, Bool.and_eq_true, beq_iff_eq] at ha hb
              rcases ih as bs ha.2 hb.2 with h | h
              · exact Or.inl (by simp [leadsWith, ha.1, hb.1, h])
              · exact Or.inr (by simp [leadsWith, ha.1, hb.1, h])

theorem leadsWith_brack : ∀ (pw ow : Str),
    leadsWith (pw ++ ['\x7d']) (ow ++ ['\x7d']) = true →
    '\x7d' ∉ pw → '\x7d' ∉ ow → pw = ow := by
  intro pw
  induction pw with
  | nil =>
      intro ow h hp ho
      match ow with
      | [] => rfl
      | q :: qt =>
          simp only [List.nil_append, List.cons_append, leadsWith, Bool.and_eq_true,
            beq_iff_eq] at h
          exact absurd h.1.symm (fun hq => ho (hq ▸ List.mem_cons_self _ _))
  | cons p pt ih =>
      intro ow h hp ho
      match ow with
      | [] =>
          simp only [List.cons_append, List.nil_append, leadsWith, Bool.and_eq_true,
            beq_iff_eq] at h
          exact absurd h.1 (fun hq => hp (hq ▸ List.mem_cons_self _ _))
      | q :: qt =>
          simp only [List.cons_append, leadsWith, Bool.and_eq_true, beq_iff_eq] at h
          have hpt : '\x7d' ∉ pt := fun hm => hp (List.mem_cons_of_mem _ hm)
          have hqt : '\x7d' ∉ qt := fun hm => ho (List.mem_cons_of_mem _ hm)
          rw [h.1, ih qt h.2 hpt hqt]

theorem tok_distinct (pw ow s : Str)
    (hp : leadsWith (tok pw) s = true) (ho : leadsWith (tok ow) s = true)
    (h1 : '\x7d' ∉ pw) (h2 : '\x7d' ∉ ow) : pw = ow := by
  match s with
  | [] => simp [tok, leadsWith] at hp
  | c :: s' =>
      simp only [tok, leadsWith, Bool.and_eq_true, beq_iff_eq] at hp ho
      rcases leadsWith_total s' _ _ hp.2 ho.2 with h | h
      · exact leadsWith_brack pw ow h h1 h2
      · exact (leadsWith_brack ow pw h h2 h1).symm

theorem rAllF_keep_suffix (os' new : Str) :
    ∀ (fuel : Nat) (s q : Str), '\x7b' ∉ q → leadsWith q s = true →
      leadsWith q (rAllF '\x7b' os' new fuel s) = true := by
  intro fuel
  induction fuel with
  | zero => intro s q _ h; simpa [rAllF] using h
  | succ fuel ih =>
      intro s q hq h
      match s with
      | [] =>
          match q with
          | [] => simp [rAllF, leadsWith]
          | qh :: qt => simp [leadsWith] at h
      | c :: rest =>
          by_cases hlw : leadsWith ('\x7b' :: os') (c :: rest) = true
          · simp only [rAllF, if_pos hlw]
            match q with
            | [] => rfl
            | qh :: qt =>
                simp only [leadsWith, Bool.and_eq_true, beq_iff_eq] at h hlw
                exact absurd (h.1.trans hlw.1.symm)
                  (fun hc => hq (hc ▸ List.mem_cons_self _ _))
          · simp only [rAllF, if_neg hlw]
            match q with
            | [] => rfl
            | qh :: qt =>
                simp only [leadsWith, Bool.and_eq_true, beq_iff_eq] at h ⊢
                have hqt : '\x7b' ∉ qt := fun hm => hq (List.mem_cons_of_mem _ hm)
                exact ⟨h.1, ih rest qt hqt h.2⟩

theorem rAllF_keep_tok (pw ow new : Str)
    (hp1 : '\x7b' ∉ pw) (hp2 : '\x7d' ∉ pw) (ho1 : '\x7b' ∉ ow) (ho2 : '\x7d' ∉ ow)
    (hne : pw ≠ ow) :
    ∀ (fuel : Nat) (s : Str), occursB (tok pw) s = true →
      occursB (tok pw) (rAllF '\x7b' (ow ++ ['\x7d']) new fuel s) = true := by
  intro fuel
  induction fuel with
  | zero => intro s h; simpa [rAllF] using h
  | succ fuel ih =>
      intro s h
      match s with
      | [] => simp [occursB, tok, leadsWith] at h
      | c :: rest =>
          by_cases hlw : leadsWith ('\x7b' :: (ow ++ ['\x7d'])) (c :: rest) = true
          · simp only [rAllF, if_pos hlw]
            simp only [occursB, Bool.or_eq_true] at h
            rcases h with h | h
            · exact absurd (tok_distinct pw ow (c :: rest) h hlw hp2 ho2) hne
            · have hlw' := hlw
              simp only [leadsWith, Bool.and_eq_true, beq_iff_eq] at hlw'
              have hrest : rest = (ow ++ ['\x7d']) ++ rest.drop (ow ++ ['\x7d']).length :=
                leadsWith_drop _ _ hlw'.2
              have hob : ∀ ch ∈ ow ++ ['\x7d'], ('\x7b' : Char) ≠ ch := by
                intro ch hch
                rcases List.mem_append.mp hch with hm | hm
                · exact fun hc' => ho1 (hc' ▸ hm)
                · rcases List.mem_singleton.mp hm with rfl
                  decide
              have hocc : occursB (tok pw) (rest.drop (ow ++ ['\x7d']).length) = true := by
                have := hrest ▸ h
                exact occurs_skip (pw ++ ['\x7d']) (ow ++ ['\x7d']) _ hob (by simpa [tok] using this)
              have := ih (rest.drop (ow ++ ['\x7d']).length) hocc
              exact occurs_append_left _ _ new this
          · simp only [rAllF, if_neg hlw]
            simp only [occursB, Bool.or_eq_true] at h
            rcases h with h | h
            · -- the token is a prefix here; its brace-free tail survives
              simp only [tok, leadsWith, Bool.and_eq_true, beq_iff_eq] at h
              have hq : '\x7b' ∉ pw ++ ['\x7d'] := by
                intro hm
                rcases List.mem_append.mp hm with hm | hm
                · exact hp1 hm
                · rcases List.mem_singleton.mp hm with hm
                  exact absurd hm (by decide)
              have hkeep := rAllF_keep_suffix (ow ++ ['\x7d']) new fuel rest
                (pw ++ ['\x7d']) hq h.2
              apply leadsWith_occurs
              simp only [tok, leadsWith, Bool.and_eq_true, beq_iff_eq]
              exact ⟨h.1, hkeep⟩
            · have := ih rest h
              simp [occursB, this]

theorem pyReplace_tok (s w new : Str) :
    pyReplace s (tok w) new = rAllF '\x7b' (w ++ ['\x7d']) new s.length s := rfl

theorem no_brace_of_word (w : Str) (h : ∀ c ∈ w, isWordChar c = true) :
    '\x7b' ∉ w ∧ '\x7d' ∉ w := by
  constructor
  · intro hm
    have := h _ hm
    simp [isWordChar] at this
  · intro hm
    have := h _ hm
    simp [isWordChar] at this

theorem pyReplace_keep_tok (s pw ow new : Str)
    (hpw : ∀ c ∈ pw, isWordChar c = true) (how : ∀ c ∈ ow, isWordChar c = true)
    (hne : pw ≠ ow) (h : occursB (tok pw) s = true) :
    occursB (tok pw) (pyReplace s (tok ow) new) = true := by
  rw [pyReplace_tok]
  exact rAllF_keep_tok pw ow new (no_brace_of_word pw hpw).1 (no_brace_of_word pw hpw).2
    (no_brace_of_word ow how).1 (no_brace_of_word ow how).2 hne s.length s h

theorem foldl_tok_keep (pw : Str) (hpw : ∀ c ∈ pw, isWordChar c = true) :
    ∀ (info : List (Str × (Str × Str × Str))) (acc : Str),
      occursB (tok pw) acc = true →
      (∀ p ∈ info, (∀ c ∈ p.1, isWordChar c = true) ∧ p.1 ≠ pw) →
      occursB (tok pw)
        (info.foldl (fun acc p => pyReplace acc (tok p.1) p.2.1) acc) = true := by
  intro info
  induction info with
  | nil => intro acc h _; simpa using h
  | cons p rest ih =>
      intro acc h hinfo
      have hp := hinfo p (List.mem_cons_self _ _)
      simp only [List.foldl_cons]
      exact ih _ (pyReplace_keep_tok acc pw p.1 p.2.1 hpw hp.1 (fun he => hp.2 he.symm) h)
        (fun q hq => hinfo q (List.mem_cons_of_mem _ hq))

theorem foldl_member_id {α β : Type} :
    ∀ (l : List α) (x : β) (f : β → α → β), (∀ a ∈ l, ∀ y, f y a = y) →
      l.foldl f x = x := by
  intro l
  induction l with
  | nil => intro x f _; rfl
  | cons a t ih =>
      intro x f h
      simp only [List.foldl_cons, h a (List.mem_cons_self _ _) x]
      exact ih x f (fun b hb => h b (List.mem_cons_of_mem _ hb))

theorem upsertRule_from (acc : List Rule) (r0 r : Rule) (h : r ∈ upsertRule acc r0) :
    r ∈ acc ∨ r = r0 := by
  unfold upsertRule at h
  by_cases hany : acc.any (fun x => x.type == r0.type) = true
  · rw [if_pos hany] at h
    rcases List.mem_map.mp h with ⟨x, hx, hxr⟩
    by_cases hxt : x.type == r0.type
    · rw [if_pos hxt] at hxr
      exact Or.inr hxr.symm
    · rw [if_neg hxt] at hxr
      exact Or.inl (hxr ▸ hx)
  · rw [if_neg hany] at h
    rcases List.mem_append.mp h with h1 | h1
    · exact Or.inl h1
    · exact Or.inr (List.mem_singleton.mp h1)

theorem indexRules_from : ∀ (rules acc : List Rule) (r : Rule),
    r ∈ rules.foldl upsertRule acc → r ∈ acc ∨ r ∈ rules := by
  intro rules
  induction rules with
  | nil => intro acc r h; exact Or.inl (by simpa using h)
  | cons r0 rest ih =>
      intro acc r h
      rcases ih (upsertRule acc r0) r h with h1 | h1
      · rcases upsertRule_from acc r0 r h1 with h2 | h2
        · exact Or.inl h2
        · exact Or.inr (h2 ▸ List.mem_cons_self _ _)
      · exact Or.inr (List.mem_cons_of_mem _ h1)

theorem applyExtraRule_empty (combo : List (Str × Str))
    (info : List (Str × (Str × Str × Str))) (r : Rule) (res : Str)
    (h : r.extra = []) : applyExtraRule combo info r res = res := by
  unfold applyExtraRule
  rw [h]
  cases lookupAssoc combo r.type with
  | none => rfl
  | some v =>
      cases lookupAssoc info r.type with
      | none => rfl
      | some nf => simp [lookupAssoc]

theorem applyExtraRule_skip (combo : List (Str × Str))
    (info : List (Str × (Str × Str × Str))) (r : Rule) (res : Str)
    (h : lookupAssoc combo r.type = none) : applyExtraRule combo info r res = res := by
  unfold applyExtraRule
  rw [h]

theorem extra_pass_id (rules : List Rule) (combo : List (Str × Str))
    (info : List (Str × (Str × Str × Str))) (x : Str)
    (h : ∀ r ∈ rules, lookupAssoc combo r.type ≠ none → r.extra = []) :
    (indexRules rules).foldl (fun res r => applyExtraRule combo info r res) x = x := by
  apply foldl_member_id
  intro r hr y
  cases hc : lookupAssoc combo r.type with
  | none => exact applyExtraRule_skip combo info r y hc
  | some v =>
      have hext : r.extra = [] := by
        rcases indexRules_from rules [] r hr with h1 | h1
        · simp at h1
        · exact h r h1 (by rw [hc]; exact Option.some_ne_none v)
      exact applyExtraRule_empty combo info r y hext

/-- C5 counterexample: a rule applicable to the combination whose wildcard
override rewrites the literal text `"{foo}"` destroys the unmatched
placeholder `{foo}` (whose identifier is neither a type of the combination
nor `modid`/`modid_safe`): the output is `"bar"` and the token is gone, so
unmatched placeholders are not always left verbatim. -/
theorem c5_placeholder_counterexample :
    engineApply ("minecraft:".data)
        [⟨"tree".data, ["oak".data],
          [(("*".data), [((tok ("foo".data)), ("bar".data))])], true⟩]
        (tok ("foo".data)) [(("tree".data), ("oak".data))] = "bar".data ∧
    occursB (tok ("foo".data)) ("bar".data) = false := by
  exact ⟨by decide, by decide⟩

/-- C5 amended: `apply` is a total function (the embedding returns a string on
every input), and every placeholder token of the content whose identifier is
neither a type present in the combination nor `modid`/`modid_safe` still
occurs in the output, provided the applicable rules — those whose type is a
key of the combination; the override pass skips every other rule — carry no
extra overrides (the override pass performs arbitrary literal substring
replacements and can rewrite such tokens, as the counterexample shows) and
the combination's type names are placeholder identifiers (letters, digits,
underscore). -/
theorem c5_placeholder_amended (defaultNs : Str) (rules : List Rule)
    (combo : List (Str × Str)) (content pid : Str)
    (hx : ∀ r ∈ rules, lookupAssoc combo r.type ≠ none → r.extra = [])
    (hw : ∀ c ∈ pid, isWordChar c = true)
    (hk : ∀ p ∈ combo, (∀ c ∈ p.1, isWordChar c = true) ∧ p.1 ≠ pid)
    (hm1 : pid ≠ "modid".data) (hm2 : pid ≠ "modid_safe".data)
    (hc : occursB (tok pid) content = true) :
    occursB (tok pid) (engineApply defaultNs rules content combo) = true := by
  have hunfold : engineApply defaultNs rules content combo =
      (indexRules rules).foldl
        (fun res r => applyExtraRule combo (combo.map (fun p => (p.1, resolve p.2 defaultNs))) r res)
        (applyBasic defaultNs (combo.map (fun p => (p.1, resolve p.2 defaultNs))) content) := rfl
  rw [hunfold, extra_pass_id rules _ _ _ hx]
  have hbasic : applyBasic defaultNs (combo.map (fun p => (p.1, resolve p.2 defaultNs))) content =
      (combo.map (fun p => (p.1, resolve p.2 defaultNs))).foldl
        (fun acc p => pyReplace acc (tok p.1) p.2.1)
        (pyReplace
          (pyReplace content (tok ("modid".data))
            (match combo.map (fun p => (p.1, resolve p.2 defaultNs)) with
              | [] => defaultNs
              | p :: _ => p.2.2.1))
          (tok ("modid_safe".data))
          (if (match combo.map (fun p => (p.1, resolve p.2 defaultNs)) with
              | [] => defaultNs
              | p :: _ => p.2.2.1) = "minecraft:".data then []
            else pyReplace (match combo.map (fun p => (p.1, resolve p.2 defaultNs)) with
              | [] => defaultNs
              | p :: _ => p.2.2.1) [':'] ['_'])) := rfl
  rw [hbasic]
  apply foldl_tok_keep pid hw
  · apply pyReplace_keep_tok _ _ _ _ hw (by decide) hm2
    exact pyReplace_keep_tok _ _ _ _ hw (by decide) hm1 hc
  · intro p hp
    rcases List.mem_map.mp hp with ⟨q, hq, hqp⟩
    have := hk q hq
    exact hqp ▸ ⟨this.1, this.2⟩

/-- C5 witness: a content holding both the unmatched token `{foo}` and the
matched token `{tree}`, a combination `{"tree": "oak"}`, an applicable rule
without extras and a non-applicable rule (type `anvil`, not in the
combination) that does carry an extra override; the unmatched token survives
the rewrite. -/
theorem c5_placeholder_witness :
    (∀ r ∈ ([⟨"tree".data, ["oak".data], [], true⟩,
        ⟨"anvil".data, ["iron".data],
          [(("*".data), [((tok ("foo".data)), ("bar".data))])], true⟩] : List Rule),
      lookupAssoc ([(("tree".data), ("oak".data))] : List (Str × Str)) r.type ≠ none →
        r.extra = []) ∧
    (∀ c ∈ ("foo".data), isWordChar c = true) ∧
    (∀ p ∈ ([(("tree".data), ("oak".data))] : List (Str × Str)),
      (∀ c ∈ p.1, isWordChar c = true) ∧ p.1 ≠ "foo".data) ∧
    ("foo".data ≠ "modid".data) ∧ ("foo".data ≠ "modid_safe".data) ∧
    occursB (tok ("foo".data)) ("\x7bfoo\x7d \x7btree\x7d".data) = true ∧
    occursB (tok ("foo".data))
      (engineApply ("minecraft:".data)
        [⟨"tree".data, ["oak".data], [], true⟩,
         ⟨"anvil".data, ["iron".data],
           [(("*".data), [((tok ("foo".data)), ("bar".data))])], true⟩]
        ("\x7bfoo\x7d \x7btree\x7d".data) [(("tree".data), ("oak".data))]) = true :=
  ⟨by decide, by decide, by decide, by decide, by decide, by decide,
    c5_placeholder_amended ("minecraft:".data)
      [⟨"tree".data, ["oak".data], [], true⟩,
       ⟨"anvil".data, ["iron".data],
         [(("*".data), [((tok ("foo".data)), ("bar".data))])], true⟩]
      [(("tree".data), ("oak".data))] ("\x7bfoo\x7d \x7btree\x7d".data) ("foo".data)
      (by decide) (by decide) (by decide) (by decide) (by decide) (by decide)⟩

theorem occursB_cons (pat : Str) (c : Char) (rest : Str) :
    occursB pat (c :: rest) = (leadsWith pat (c :: rest) || occursB pat rest) := rfl

theorem collapseU_cons (a : Char) (x : Str) :
    collapseU (a :: x) =
      if a = '_' ∧ x.head? = some '_' then collapseU x else a :: collapseU x := by
  match x with
  | [] => simp [collapseU]
  | b :: y => simp [collapseU]

theorem rAllF_uu_head : ∀ (fuel : Nat) (t : Str),
    (rAllF '_' ['_'] ['_'] fuel t).head? = t.head? := by
  intro fuel t
  match fuel, t with
  | 0, t => rfl
  | fuel + 1, [] => rfl
  | fuel + 1, c :: rest =>
      by_cases hlw : leadsWith ['_', '_'] (c :: rest) = true
      · have hlw' := hlw
        simp only [leadsWith, Bool.and_eq_true, beq_iff_eq] at hlw'
        have hc : ('_' : Char) = c := hlw'.1
        subst hc
        simp [rAllF, hlw]
      · simp [rAllF, hlw]

theorem collapseU_rAllF : ∀ (fuel : Nat) (s : Str), s.length ≤ fuel →
    collapseU (rAllF '_' ['_'] ['_'] fuel s) = collapseU s := by
  intro fuel
  induction fuel with
  | zero =>
      intro s hs
      have : s = [] := List.length_eq_zero.mp (Nat.le_zero.mp hs)
      subst this
      rfl
  | succ fuel ih =>
      intro s hs
      match s with
      | [] => rfl
      | c :: rest =>
          by_cases hlw : leadsWith ['_', '_'] (c :: rest) = true
          · have hlw' := hlw
            simp only [leadsWith, Bool.and_eq_true, beq_iff_eq] at hlw'
            obtain ⟨hc, hr⟩ := hlw'
            subst hc
            cases rest with
            | nil => exact absurd hr (by simp [leadsWith])
            | cons r0 t =>
                simp only [leadsWith, Bool.and_eq_true, beq_iff_eq] at hr
                have hr0 : ('_' : Char) = r0 := hr.1
                subst hr0
                have hlen : t.length ≤ fuel := by simp at hs; omega
                have hout : rAllF '_' ['_'] ['_'] (fuel + 1) ('_' :: '_' :: t) =
                    '_' :: rAllF '_' ['_'] ['_'] fuel t := by
                  simp [rAllF, leadsWith]
                rw [hout]
                have hstep : collapseU ('_' :: '_' :: t) = collapseU ('_' :: t) := by
                  simp [collapseU]
                rw [hstep, collapseU_cons, collapseU_cons, rAllF_uu_head, ih t hlen]
          · have hlen : rest.length ≤ fuel := by simp at hs; omega
            have hout : rAllF '_' ['_'] ['_'] (fuel + 1) (c :: rest) =
                c :: rAllF '_' ['_'] ['_'] fuel rest := by
              simp [rAllF, hlw]
            rw [hout, collapseU_cons, collapseU_cons, rAllF_uu_head, ih rest hlen]

theorem collapseU_fixed : ∀ (s : Str), ¬ occursB ['_', '_'] s = true → collapseU s = s := by
  intro s
  induction s with
  | nil => intro _; rfl
  | cons a t ih =>
      intro h
      match t with
      | [] => rfl
      | b :: rest =>
          have hocc : ¬ occursB ['_', '_'] (b :: rest) = true := by
            intro hr
            apply h
            rw [occursB_cons]
            simp [hr]
          have hlw : ¬ (a = '_' ∧ b = '_') := by
            intro hab
            apply h
            rw [occursB_cons]
            have hl : leadsWith ['_', '_'] (a :: b :: rest) = true := by
              simp only [leadsWith, Bool.and_eq_true, beq_iff_eq]
              exact ⟨hab.1.symm, hab.2.symm, trivial⟩
            simp [hl]
          simp only [collapseU, if_neg hlw]
          rw [ih hocc]

theorem rAllF_uu_len : ∀ (fuel : Nat) (s : Str), s.length ≤ fuel →
    (rAllF '_' ['_'] ['_'] fuel s).length ≤ s.length ∧
      (occursB ['_', '_'] s = true → (rAllF '_' ['_'] ['_'] fuel s).length < s.length) := by
  intro fuel
  induction fuel with
  | zero =>
      intro s hs
      have : s = [] := List.length_eq_zero.mp (Nat.le_zero.mp hs)
      subst this
      exact ⟨Nat.le_refl _, fun h => by simp [occursB, leadsWith] at h⟩
  | succ fuel ih =>
      intro s hs
      match s with
      | [] => exact ⟨Nat.le_refl _, fun h => by simp [occursB, leadsWith] at h⟩
      | c :: rest =>
          by_cases hlw : leadsWith ['_', '_'] (c :: rest) = true
          · have hlw' := hlw
            simp only [leadsWith, Bool.and_eq_true, beq_iff_eq] at hlw'
            obtain ⟨hc, hr⟩ := hlw'
            subst hc
            cases rest with
            | nil => exact absurd hr (by simp [leadsWith])
            | cons r0 t =>
                simp only [leadsWith, Bool.and_eq_true, beq_iff_eq] at hr
                have hr0 : ('_' : Char) = r0 := hr.1
                subst hr0
                have hlen : t.length ≤ fuel := by simp at hs; omega
                have hrec := (ih t hlen).1
                have hout : rAllF '_' ['_'] ['_'] (fuel + 1) ('_' :: '_' :: t) =
                    '_' :: rAllF '_' ['_'] ['_'] fuel t := by
                  simp [rAllF, leadsWith]
                rw [hout]
                constructor
                · simp only [List.length_cons]
                  omega
                · intro _
                  simp only [List.length_cons]
                  omega
          · have hlen : rest.length ≤ fuel := by simp at hs; omega
            have hrec := ih rest hlen
            have hout : rAllF '_' ['_'] ['_'] (fuel + 1) (c :: rest) =
                c :: rAllF '_' ['_'] ['_'] fuel rest := by
              simp [rAllF, hlw]
            rw [hout]
            constructor
            · simp only [List.length_cons]
              omega
            · intro hocc
              have hr : occursB ['_', '_'] rest = true := by
                rw [occursB_cons] at hocc
                rcases Bool.or_eq_true_iff.mp hocc with h1 | h1
                · exact absurd h1 hlw
                · exact h1
              have := hrec.2 hr
              simp only [List.length_cons]
              omega

theorem collapseLoopF_eq : ∀ (fuel : Nat) (s : Str), s.length ≤ fuel →
    collapseLoopF fuel s = collapseU s := by
  intro fuel
  induction fuel with
  | zero =>
      intro s hs
      have : s = [] := List.length_eq_zero.mp (Nat.le_zero.mp hs)
      subst this
      rfl
  | succ fuel ih =>
      intro s hs
      by_cases hocc : occursB ['_', '_'] s = true
      · have hdec := (rAllF_uu_len s.length s (Nat.le_refl _)).2 hocc
        have hlen : (pyReplace s ['_', '_'] ['_']).length ≤ fuel := by
          have hlt : (pyReplace s ['_', '_'] ['_']).length < s.length := hdec
          omega
        simp only [collapseLoopF, if_pos hocc]
        rw [ih _ hlen]
        exact collapseU_rAllF s.length s (Nat.le_refl _)
      · simp only [collapseLoopF, if_neg hocc]
        exact (collapseU_fixed s hocc).symm

theorem collapseLoop_eq_collapseU (s : Str) : collapseLoop s = collapseU s :=
  collapseLoopF_eq s.length s (Nat.le_refl _)

/-- C6: `_build_real_key` equals the spec's declarative pipeline — placeholder
substitution, then (exactly for the items `minecraft:crimson` and
`minecraft:warped`) the `_log_` to `_stem_` and `table_log` to `table_stem`
replacements, then every run of consecutive underscores collapsed to one
(the source's fixed-point loop equals the one-pass collapse) and
leading/trailing underscores stripped; in particular the crimson example
yields `"block.pfm.crimson_stem_table"`. -/
theorem c6_real_key_spec :
    (∀ (kt : Str) (item : BatchItem), build_real_key kt item = build_real_key_spec kt item) ∧
    build_real_key ("block.pfm.\x7bmaterial_id\x7d_log_table".data)
        ⟨"minecraft:crimson".data, "绯红木".data, "minecraft:".data, "material".data, [], []⟩ =
      "block.pfm.crimson_stem_table".data := by
  constructor
  · intro kt item
    simp only [build_real_key, build_real_key_spec, collapseLoop_eq_collapseU]
  · decide

theorem dropWhile_len {α : Type} (p : α → Bool) :
    ∀ (l : List α), (l.dropWhile p).length ≤ l.length := by
  intro l
  induction l with
  | nil => simp
  | cons a t ih =>
      by_cases hp : p a = true
      · simp only [List.dropWhile_cons, if_pos hp]
        exact Nat.le_succ_of_le ih
      · simp only [List.dropWhile_cons, if_neg hp]
        simp

theorem takeWhile_filter_dropWhile {α : Type} (p : α → Bool) :
    ∀ (l : List α), l.takeWhile p ++ (l.dropWhile p).filter p = l.filter p := by
  intro l
  induction l with
  | nil => simp
  | cons a t ih =>
      by_cases hp : p a = true
      · simp [List.takeWhile_cons, List.dropWhile_cons, List.filter_cons, hp, ih]
      · simp only [Bool.not_eq_true] at hp
        simp [List.takeWhile_cons, List.dropWhile_cons, List.filter_cons, hp]

theorem pySplitWS_join : ∀ (fuel : Nat) (s : Str), s.length ≤ fuel →
    (pySplitWSF fuel s).flatten = s.filter (fun c => !isWS c) := by
  intro fuel
  induction fuel with
  | zero =>
      intro s hs
      have : s = [] := List.length_eq_zero.mp (Nat.le_zero.mp hs)
      subst this
      rfl
  | succ fuel ih =>
      intro s hs
      match s with
      | [] => rfl
      | c :: rest =>
          have hlen : rest.length ≤ fuel := by simp at hs; omega
          by_cases hws : isWS c = true
          · simp only [pySplitWSF, if_pos hws]
            rw [ih rest hlen]
            simp [List.filter_cons, hws]
          · simp only [pySplitWSF, if_neg hws]
            have hdlen : (rest.dropWhile (fun x => !isWS x)).length ≤ fuel :=
              Nat.le_trans (dropWhile_len _ rest) hlen
            simp only [List.flatten_cons]
            rw [ih _ hdlen]
            rw [List.cons_append, takeWhile_filter_dropWhile]
            simp [List.filter_cons, hws]

theorem foldl_skip_filter (f : Str → (Str × Str) → Str) :
    ∀ (l : List (Str × Str)) (acc : Str),
      l.foldl (fun a pr => if startsU pr.1 then a else f a pr) acc =
        (l.filter (fun pr => !startsU pr.1)).foldl f acc := by
  intro l
  induction l with
  | nil => intro acc; rfl
  | cons pr rest ih =>
      intro acc
      by_cases hst : startsU pr.1 = true
      · simp [List.foldl_cons, List.filter_cons, hst, ih]
      · simp only [Bool.not_eq_true] at hst
        simp [List.foldl_cons, List.filter_cons, hst, ih]

/-- C7: `apply_replacements` applies exactly the non-metadata pairs (those
whose key does not begin with `'_'`) of `item.replacements` as literal
replace-alls in order, then removes every whitespace character (the
`''.join(result.split())` step equals filtering out whitespace); consequently
the returned string contains no whitespace character at all. -/
theorem c7_apply_replacements_spec :
    (∀ (item : BatchItem) (text : Str),
      apply_replacements item text =
        ((item.replacements.filter (fun pr => !startsU pr.1)).foldl
          (fun acc pr => pyReplace acc pr.1 pr.2) text).filter (fun c => !isWS c)) ∧
    (∀ (item : BatchItem) (text : Str) (c : Char),
      c ∈ apply_replacements item text → isWS c = false) := by
  have hmain : ∀ (item : BatchItem) (text : Str),
      apply_replacements item text =
        ((item.replacements.filter (fun pr => !startsU pr.1)).foldl
          (fun acc pr => pyReplace acc pr.1 pr.2) text).filter (fun c => !isWS c) := by
    intro item text
    unfold apply_replacements
    rw [pySplitWS_join _ _ (Nat.le_refl _)]
    rw [foldl_skip_filter]
  constructor
  · exact hmain
  · intro item text c hc
    rw [hmain item text] at hc
    have := List.of_mem_filter hc
    simpa using this

theorem gen_ok_fst (defaultNs : Str) (rules : List Rule)
    (items : List (Str × BatchItem)) (templates : List (Str × LocTemplate))
    (iid tn : Str) (r : Str × List (Str × Str))
    (h : generate_for_item defaultNs rules items templates iid tn = .ok r) :
    r.1 = iid := by
  unfold generate_for_item at h
  split at h
  · simp at h
  · split at h
    · simp at h
    · split at h
      · simp at h
      · injection h with h4
        rw [← h4]

theorem dictInsert_new {α : Type} (l : List (Str × α)) (k : Str) (v : α)
    (h : ∀ p ∈ l, p.1 ≠ k) : dictInsert l k v = l ++ [(k, v)] := by
  unfold dictInsert
  rw [if_neg]
  simp only [List.any_eq_true, beq_iff_eq, not_exists]
  intro p
  intro hmem
  rcases hmem with ⟨hp, hpk⟩
  exact h p hp hpk

theorem batch_fold (defaultNs : Str) (rules : List Rule)
    (items : List (Str × BatchItem)) (templates : List (Str × LocTemplate)) (tn : Str) :
    ∀ (pending : List (Str × BatchItem)) (acc : List (Str × List (Str × Str))),
      (∀ p ∈ pending, ∀ q ∈ acc, q.1 ≠ p.1) →
      (pending.map Prod.fst).Nodup →
      pending.foldl (fun results p =>
        match generate_for_item defaultNs rules items templates p.1 tn with
        | .ok r => dictInsert results r.1 r.2
        | .error _ => results) acc =
      acc ++ pending.filterMap (fun p =>
        match generate_for_item defaultNs rules items templates p.1 tn with
        | .ok r => some r
        | .error _ => none) := by
  intro pending
  induction pending with
  | nil => intro acc _ _; simp
  | cons p rest ih =>
      intro acc hdisj hnd
      have hndr : (rest.map Prod.fst).Nodup := by
        simp only [List.map_cons, List.nodup_cons] at hnd
        exact hnd.2
      have hpnotin : p.1 ∉ rest.map Prod.fst := by
        simp only [List.map_cons, List.nodup_cons] at hnd
        exact hnd.1
      simp only [List.foldl_cons, List.filterMap_cons]
      cases hg : generate_for_item defaultNs rules items templates p.1 tn with
      | error e =>
          dsimp only
          rw [ih acc (fun q hq r hr => hdisj q (List.mem_cons_of_mem _ hq) r hr) hndr]
      | ok r =>
          dsimp only
          have hr1 : r.1 = p.1 := gen_ok_fst defaultNs rules items templates p.1 tn r hg
          have hnew : ∀ q ∈ acc, q.1 ≠ r.1 := by
            intro q hq
            rw [hr1]
            exact hdisj p (List.mem_cons_self _ _) q hq
          rw [dictInsert_new acc r.1 r.2 hnew]
          rw [ih (acc ++ [(r.1, r.2)]) ?_ hndr]
          · rw [List.append_assoc, List.singleton_append]
          · intro p' hp' q hq
            rcases List.mem_append.mp hq with h1 | h1
            · exact hdisj p' (List.mem_cons_of_mem _ hp') q h1
            · rcases List.mem_singleton.mp h1 with rfl
              simp only [hr1]
              intro he
              exact hpnotin (he ▸ List.mem_map_of_mem Prod.fst hp')

theorem batch_fst (defaultNs : Str) (rules : List Rule)
    (items : List (Str × BatchItem)) (templates : List (Str × LocTemplate)) (tn : Str) :
    ∀ (pending : List (Str × BatchItem)),
      (pending.filterMap (fun p =>
        match generate_for_item defaultNs rules items templates p.1 tn with
        | .ok r => some r
        | .error _ => none)).map Prod.fst =
      (pending.filter (fun p =>
        isOkB (generate_for_item defaultNs rules items templates p.1 tn))).map Prod.fst := by
  intro pending
  induction pending with
  | nil => rfl
  | cons p rest ih =>
      simp only [List.filterMap_cons, List.filter_cons]
      cases hg : generate_for_item defaultNs rules items templates p.1 tn with
      | error e =>
          dsimp only
          have hc2 : isOkB (Except.error e : Except GenErr (Str × List (Str × Str))) = false :=
            rfl
          rw [if_neg (by rw [hc2]; exact Bool.false_ne_true)]
          exact ih
      | ok r =>
          have hr1 : r.1 = p.1 := gen_ok_fst defaultNs rules items templates p.1 tn r hg
          dsimp only
          have hc2 : isOkB (Except.ok r : Except GenErr (Str × List (Str × Str))) = true := rfl
          rw [if_pos hc2]
          simp only [List.map_cons, hr1, ih]

/-- C8: batch-level failure isolation — for item dicts with unique ids (a dict
invariant), `generate_batch` equals the per-item `generate_for_item` results
with every erroring item filtered out: one failing item never aborts the
batch, every succeeding item keeps its entry, and the result's keys are
exactly the ids of the items whose generation succeeded. -/
theorem c8_batch_isolation (defaultNs : Str) (rules : List Rule)
    (items : List (Str × BatchItem)) (templates : List (Str × LocTemplate)) (tn : Str)
    (hnd : (items.map Prod.fst).Nodup) :
    generate_batch defaultNs rules items templates tn =
      items.filterMap (fun p =>
        match generate_for_item defaultNs rules items templates p.1 tn with
        | .ok r => some r
        | .error _ => none) ∧
    (generate_batch defaultNs rules items templates tn).map Prod.fst =
      (items.filter (fun p =>
        isOkB (generate_for_item defaultNs rules items templates p.1 tn))).map Prod.fst := by
  have h1 : generate_batch defaultNs rules items templates tn =
      items.filterMap (fun p =>
        match generate_for_item defaultNs rules items templates p.1 tn with
        | .ok r => some r
        | .error _ => none) := by
    unfold generate_batch
    rw [batch_fold defaultNs rules items templates tn items []
      (fun p _ q hq => absurd hq (List.not_mem_nil q)) hnd]
    rfl
  exact ⟨h1, by rw [h1]; exact batch_fst defaultNs rules items templates tn items⟩

/-- C8 witness: two items with distinct ids and a loaded dict template; the
batch equals the filtered per-item results. -/
theorem c8_batch_isolation_witness :
    (([(("a".data), (⟨"a".data, "甲".data, "minecraft:".data, "material".data, [], []⟩ :
        BatchItem)),
      (("b".data), (⟨"b".data, "乙".data, "minecraft:".data, "material".data, [], []⟩ :
        BatchItem))].map Prod.fst).Nodup) ∧
    (generate_batch ("minecraft:".data) []
      [(("a".data), (⟨"a".data, "甲".data, "minecraft:".data, "material".data, [], []⟩ : BatchItem)),
       (("b".data), (⟨"b".data, "乙".data, "minecraft:".data, "material".data, [], []⟩ : BatchItem))]
      [(("t.json".data), (⟨some [(("k".data), ("v".data))]⟩ : LocTemplate))] ("t.json".data) =
      [(("a".data), (⟨"a".data, "甲".data, "minecraft:".data, "material".data, [], []⟩ : BatchItem)),
       (("b".data), (⟨"b".data, "乙".data, "minecraft:".data, "material".data, [], []⟩ : BatchItem))].filterMap
        (fun p =>
          match generate_for_item ("minecraft:".data) []
            [(("a".data), (⟨"a".data, "甲".data, "minecraft:".data, "material".data, [], []⟩ : BatchItem)),
             (("b".data), (⟨"b".data, "乙".data, "minecraft:".data, "material".data, [], []⟩ : BatchItem))]
            [(("t.json".data), (⟨some [(("k".data), ("v".data))]⟩ : LocTemplate))] p.1 ("t.json".data) with
          | .ok r => some r
          | .error _ => none) ∧
    (generate_batch ("minecraft:".data) []
      [(("a".data), (⟨"a".data, "甲".data, "minecraft:".data, "material".data, [], []⟩ : BatchItem)),
       (("b".data), (⟨"b".data, "乙".data, "minecraft:".data, "material".data, [], []⟩ : BatchItem))]
      [(("t.json".data), (⟨some [(("k".data), ("v".data))]⟩ : LocTemplate))] ("t.json".data)).map Prod.fst =
      ([(("a".data), (⟨"a".data, "甲".data, "minecraft:".data, "material".data, [], []⟩ :
          BatchItem)),
        (("b".data), (⟨"b".data, "乙".data, "minecraft:".data, "material".data, [], []⟩ :
          BatchItem))].filter
        (fun p =>
          isOkB (generate_for_item ("minecraft:".data) []
            [(("a".data), (⟨"a".data, "甲".data, "minecraft:".data, "material".data, [], []⟩ : BatchItem)),
             (("b".data), (⟨"b".data, "乙".data, "minecraft:".data, "material".data, [], []⟩ : BatchItem))]
            [(("t.json".data), (⟨some [(("k".data), ("v".data))]⟩ : LocTemplate))] p.1
            ("t.json".data)))).map Prod.fst) :=
  ⟨by decide,
    c8_batch_isolation ("minecraft:".data) []
      [(("a".data), (⟨"a".data, "甲".data, "minecraft:".data, "material".data, [], []⟩ : BatchItem)),
       (("b".data), (⟨"b".data, "乙".data, "minecraft:".data, "material".data, [], []⟩ : BatchItem))]
      [(("t.json".data), (⟨some [(("k".data), ("v".data))]⟩ : LocTemplate))] ("t.json".data) (by decide)⟩
